import Mathlib

/-!
Verification of the portfolio rule-evaluation engine of this repository.

The central piece of code under verification is the rule class
CurrencyClusterRiskBaseCurrencyInitialInvestment
(src/libs/common/src/lib/config.ts, lines 47 to 111) together with the
restricted-view normalization and the public-portfolio access check of
PortfolioController (src/apps/api/src/app/portfolio/portfolio.controller.ts).

Monetary amounts are embedded as exact rationals (ℚ).  JavaScript produces
the special values NaN and Infinity from division; these are embedded
explicitly by the type JsNum below, so that expressions such as
`x / 0`, `undefined / x` and `x || 0` keep their JavaScript meaning.
-/

/-! ## Decimal rendering: the JavaScript Number.prototype.toPrecision(3) -/

/-- String for a single decimal digit. -/
def digitStr : ℕ → String
  | 0 => "0"
  | 1 => "1"
  | 2 => "2"
  | 3 => "3"
  | 4 => "4"
  | 5 => "5"
  | 6 => "6"
  | 7 => "7"
  | 8 => "8"
  | _ => "9"

/-- Fuel-driven decimal printer for natural numbers (structural recursion, so
that the kernel can evaluate it on concrete inputs). -/
def natToStrAux : ℕ → ℕ → String
  | 0, _ => ""
  | fuel + 1, n => if n < 10 then digitStr n else natToStrAux fuel (n / 10) ++ digitStr (n % 10)

/-- Decimal printer for natural numbers. -/
def natToStr (n : ℕ) : String := natToStrAux (n + 1) n

/-- A string of n zero characters. -/
def zeros : ℕ → String
  | 0 => ""
  | n + 1 => "0" ++ zeros n

/-- Fuel-driven count of decimal digits. -/
def digits10Aux : ℕ → ℕ → ℕ
  | 0, _ => 0
  | fuel + 1, n => if n = 0 then 0 else digits10Aux fuel (n / 10) + 1

/-- Number of decimal digits of a natural number (0 has 0 digits). -/
def digits10 (n : ℕ) : ℕ := digits10Aux (n + 1) n

/-- Decimal exponent of a positive rational: the unique e with
10 ^ e ≤ q < 10 ^ (e + 1). -/
def qExp10 (q : ℚ) : ℤ :=
  let a : ℤ := digits10 q.num.toNat
  let b : ℤ := digits10 q.den
  let d : ℤ := a - b
  let ge : Bool :=
    if 0 ≤ d then decide ((q.den : ℤ) * (10 : ℤ) ^ d.toNat ≤ q.num)
    else decide ((q.den : ℤ) ≤ q.num * (10 : ℤ) ^ (-d).toNat)
  if ge then d else d - 1

/-- Round a nonnegative rational to the nearest integer, ties away from zero
(the rounding mode of Number.prototype.toPrecision). -/
def qRoundHalfUp (q : ℚ) : ℕ := ((q + 1 / 2).num / ((q + 1 / 2).den : ℤ)).toNat

/-- toPrecision(3) of a positive rational: three significant digits, with
fixed notation for decimal exponents between -6 and 2 and exponential
notation otherwise, as specified for JavaScript Number.prototype.toPrecision. -/
def toPrecision3Pos (q : ℚ) : String :=
  let e0 := qExp10 q
  let scaled : ℚ :=
    if 0 ≤ 2 - e0 then q * (10 : ℚ) ^ (2 - e0).toNat else q / (10 : ℚ) ^ (e0 - 2).toNat
  let n0 := qRoundHalfUp scaled
  let n := if n0 = 1000 then 100 else n0
  let e := if n0 = 1000 then e0 + 1 else e0
  let d1 := digitStr (n / 100)
  let d2 := digitStr (n / 10 % 10)
  let d3 := digitStr (n % 10)
  if e < -6 ∨ 3 ≤ e then
    d1 ++ "." ++ d2 ++ d3 ++ "e" ++ (if e < 0 then "-" else "+") ++ natToStr e.natAbs
  else if e = 2 then d1 ++ d2 ++ d3
  else if e = 1 then d1 ++ d2 ++ "." ++ d3
  else if e = 0 then d1 ++ "." ++ d2 ++ d3
  else "0." ++ zeros (-e - 1).toNat ++ d1 ++ d2 ++ d3

/-- toPrecision(3) of an exact rational, sign included; (0).toPrecision(3)
is the string 0.00 in JavaScript. -/
def toPrecision3 (q : ℚ) : String :=
  if q = 0 then "0.00"
  else if q < 0 then "-" ++ toPrecision3Pos (-q)
  else toPrecision3Pos q

/-! ## JavaScript numbers with their exceptional values -/

/-- A JavaScript number as produced by the arithmetic of the rule: either an
exact rational or one of the exceptional values NaN, Infinity, -Infinity. -/
inductive JsNum where
  | num (q : ℚ)
  | nan
  | inf
  | negInf
deriving DecidableEq

/-- JavaScript division of two numbers: a nonzero value divided by zero gives
a signed Infinity, zero divided by zero gives NaN. -/
def jsDivQ (a b : ℚ) : JsNum :=
  if b = 0 then
    if a = 0 then .nan else if 0 < a then .inf else .negInf
  else .num (a / b)

/-- JavaScript division where the numerator may be undefined (the optional
chaining expression item?.investment): undefined divided by anything is NaN. -/
def jsDivOpt (a : Option ℚ) (b : ℚ) : JsNum :=
  match a with
  | none => .nan
  | some q => jsDivQ q b

/-- The JavaScript expression x || 0: NaN and 0 are falsy and are replaced by
0; every other number, Infinity included, is kept. -/
def jsOrZero : JsNum → JsNum
  | .nan => .num 0
  | .num q => if q = 0 then .num 0 else .num q
  | x => x

/-- Multiplication of a JavaScript number by a positive rational constant
(used with the constant 100 when the rule renders a percentage). -/
def jsMulPos (x : JsNum) (c : ℚ) : JsNum :=
  match x with
  | .num q => .num (q * c)
  | .nan => .nan
  | .inf => .inf
  | .negInf => .negInf

/-- How JavaScript string interpolation renders a number after toPrecision(3). -/
def renderJsNum : JsNum → String
  | .num q => toPrecision3 q
  | .nan => "NaN"
  | .inf => "Infinity"
  | .negInf => "-Infinity"

/-- Numeric content of a JsNum; the exceptional values are mapped to 0. -/
def jsNumToQ : JsNum → ℚ
  | .num q => q
  | _ => 0

/-! ## Data model of the rule engine -/

/-- One held instrument, as aggregated into CurrentPositions (spec section 3).
Only the attributes read by the code under verification are embedded. -/
structure Position where
  symbol : String
  currency : String
  quantity : ℚ
  marketPrice : ℚ
  investment : ℚ
deriving DecidableEq

/-- The full position set of one user at evaluation time
(interface CurrentPositions, spec section 3). -/
structure CurrentPositions where
  positions : List Position
  fees : ℚ
  errors : List String
deriving DecidableEq

/-- A transient group of positions sharing an attribute value
(spec section 3, GroupItem). -/
structure GroupItem where
  groupKey : String
  investment : ℚ
  positions : List Position
deriving DecidableEq

/-- Settings of the currency-cluster-risk rule: the RuleSettings field
isActive plus the rule-specific field baseCurrency
(src/libs/common/src/lib/config.ts, interface Settings). -/
structure Settings where
  baseCurrency : String
  isActive : Bool
deriving DecidableEq

/-- The output of a rule: human-readable text and a boolean verdict
(spec section 3, Evaluation). -/
structure Evaluation where
  evaluation : String
  value : Bool
deriving DecidableEq

/-- Modelled from the spec: the user-level preferences from which each rule
derives its settings.  The UserSettings interface is not under src/; spec
sections 3 and 4.3 state that it supplies the base currency and a per-rule
active flag, embedded here as the activation preference for the
currency-cluster-risk rule. -/
structure UserSettings where
  baseCurrency : String
  isCurrencyRuleActive : Bool
deriving DecidableEq

/-! ## Grouping helper (Rule base class) -/

/-- Modelled from the spec: one step of groupCurrentPositionsByAttribute of
the Rule base class (file rule.ts, not under src/).  Spec section 4.2: the
helper groups positions by the value of the attribute selector, summing
investment per group, in insertion order of first occurrence. -/
def addToGroups (attr : Position → String) (acc : List GroupItem) (p : Position) :
    List GroupItem :=
  if acc.any fun g => g.groupKey = attr p then
    acc.map fun g =>
      if g.groupKey = attr p then
        { g with investment := g.investment + p.investment, positions := g.positions ++ [p] }
      else g
  else
    acc ++ [{ groupKey := attr p, investment := p.investment, positions := [p] }]

/-- Modelled from the spec: groupCurrentPositionsByAttribute of the Rule base
class (file rule.ts, not under src/).  Spec section 4.2: groups positions by
the attribute value in insertion order of first occurrence; if the pinned key
(here always supplied) has no group, an empty GroupItem with zero investment
is created for it.  The spec leaves the place of that created item open; it
is appended at the end here. -/
def groupCurrentPositionsByAttribute (positions : List Position)
    (attr : Position → String) (pinnedKey : String) : List GroupItem :=
  let grouped := positions.foldl (addToGroups attr) []
  if grouped.any fun g => g.groupKey = pinnedKey then grouped
  else grouped ++ [{ groupKey := pinnedKey, investment := 0, positions := [] }]

/-! ## The currency-cluster-risk rule (source: config.ts lines 47 to 111) -/

/-- The grouping call of evaluate (config.ts lines 58 to 62): positions
grouped by the attribute currency, pinned to the base currency of the rule
settings. -/
def positionsGroupedByCurrency (ruleSettings : Settings)
    (currentPositions : CurrentPositions) : List GroupItem :=
  groupCurrentPositionsByAttribute currentPositions.positions
    (fun p => p.currency) ruleSettings.baseCurrency

/-- The total investment accumulated by the forEach loop of evaluate
(config.ts lines 67 to 75). -/
def totalInvestmentOf (groups : List GroupItem) : ℚ :=
  groups.foldl (fun t g => t + g.investment) 0

/-- The maximum search of the forEach loop of evaluate (config.ts lines 64
and 67 to 75): maxItem starts at element 0 and is replaced whenever a group
has strictly larger investment, so the first group attaining the maximum
wins. -/
def maxItemOf (first : GroupItem) (groups : List GroupItem) : GroupItem :=
  groups.foldl (fun m g => if m.investment < g.investment then g else m) first

/-- The find call of evaluate (config.ts lines 77 to 79): the first group
whose key is the base currency. -/
def baseCurrencyItemOf (base : String) (groups : List GroupItem) : Option GroupItem :=
  groups.find? fun item => item.groupKey = base

/-- The expression baseCurrencyItem?.investment / totalInvestment || 0 of
evaluate (config.ts lines 81 and 82), with JavaScript division and falsy
fallback semantics. -/
def baseCurrencyInvestmentRatioOf (base : String) (groups : List GroupItem) : JsNum :=
  jsOrZero (jsDivOpt ((baseCurrencyItemOf base groups).map GroupItem.investment)
    (totalInvestmentOf groups))

/-- The template of the evaluation text of evaluate (config.ts lines 84 to
98): both branches interpolate the ratio times 100 through toPrecision(3). -/
def evaluationText (isMajor : Bool) (rv : JsNum) (base : String) : String :=
  (if isMajor then "The major part of your initial investment is in your base currency ("
   else "The major part of your initial investment is not in your base currency (")
  ++ renderJsNum (jsMulPos rv 100) ++ "% in " ++ base ++ ")"

/-- evaluate of CurrencyClusterRiskBaseCurrencyInitialInvestment (config.ts
lines 57 to 99).  Reading element 0 of an empty array and then its fields
would fail in JavaScript; this partiality is embedded by returning an Option,
with none for the failing execution. -/
def evaluate (ruleSettings : Settings) (currentPositions : CurrentPositions) :
    Option Evaluation :=
  match positionsGroupedByCurrency ruleSettings currentPositions with
  | [] => none
  | first :: rest =>
    let groups := first :: rest
    let maxItem := maxItemOf first groups
    let rv := baseCurrencyInvestmentRatioOf ruleSettings.baseCurrency groups
    if maxItem.groupKey ≠ ruleSettings.baseCurrency then
      some { evaluation := evaluationText false rv ruleSettings.baseCurrency, value := false }
    else
      some { evaluation := evaluationText true rv ruleSettings.baseCurrency, value := true }

/-- getSettings of CurrencyClusterRiskBaseCurrencyInitialInvestment
(config.ts lines 101 to 107): it copies the base currency of the user
settings and sets isActive to the literal true. -/
def getSettings (aUserSettings : UserSettings) : Settings :=
  { baseCurrency := aUserSettings.baseCurrency, isActive := true }

/-! ## Rule catalog and evaluator -/

/-- A rule of the catalog: name, settings derivation, evaluation
(spec section 4.3, capability set of a rule). -/
structure RuleDef where
  name : String
  getSettings : UserSettings → Settings
  evaluate : Settings → CurrentPositions → Option Evaluation

/-- The currency-cluster-risk rule as a catalog entry, with the name given in
its constructor (config.ts lines 52 to 54). -/
def currencyClusterRiskBaseCurrencyInitialInvestment : RuleDef :=
  { name := "Initial Investment: Base Currency"
    getSettings := getSettings
    evaluate := evaluate }

/-- Modelled from the spec: the rule evaluator (RulesService, not under
src/).  Spec section 4.4: it iterates the fixed ordered catalog, derives the
settings of each rule, skips a rule whose settings are not active, and
appends each produced evaluation in catalog order. -/
def evaluateAll (catalog : List RuleDef) (u : UserSettings)
    (currentPositions : CurrentPositions) : List (String × Option Evaluation) :=
  (catalog.filter fun r => (r.getSettings u).isActive).map
    fun r => (r.name, r.evaluate (r.getSettings u) currentPositions)

/-- The state-threaded form of evaluate: the source (config.ts lines 57 to
99) contains no assignment to currentPositions or to any of its positions --
the only mutated objects are the freshly created group items -- so the
embedding returns the received CurrentPositions value as the final state. -/
def evaluateWithState (ruleSettings : Settings) (currentPositions : CurrentPositions) :
    Option Evaluation × CurrentPositions :=
  (evaluate ruleSettings currentPositions, currentPositions)

/-! ## PortfolioController.getPublic access phase (portfolio.controller.ts) -/

/-- An access record as returned by accessService.access
(portfolio.controller.ts line 272). -/
structure Access where
  userId : String
deriving DecidableEq

/-- Outcome of the access phase of getPublic. -/
inductive GetPublicStep where
  | nullDereference
  | notFoundResponse
  | proceed (userId : String)
deriving DecidableEq

/-- The access phase of PortfolioController.getPublic
(portfolio.controller.ts lines 272 to 280), in execution order: the user
lookup reads access.userId first, which throws a TypeError when the access
lookup produced null; only afterwards is the guard on a missing access
tested and the 404 response with empty accounts and holdings returned. -/
def getPublicAccessPhase (lookup : String → Option Access) (accessId : String) :
    GetPublicStep :=
  match lookup accessId with
  | none => .nullDereference
  | some access =>
    if (lookup accessId).isNone then .notFoundResponse
    else .proceed access.userId

/-! ## PortfolioController.getDetails restricted-view normalization -/

/-- One holding as returned by portfolioService.getDetails, with the fields
read or written by the restricted-view branch (portfolio.controller.ts lines
166 to 199).  All fields are numeric before normalization. -/
structure HoldingRecord where
  currency : String
  quantity : ℚ
  marketPrice : ℚ
  investment : ℚ
  value : ℚ
  grossPerformance : ℚ
  netPerformance : ℚ
deriving DecidableEq

/-- One holding after the restricted-view normalization: quantity and the
two performance fields are set to null, investment and value become
JavaScript division results. -/
structure NormalizedHolding where
  currency : String
  quantity : Option ℚ
  marketPrice : ℚ
  investment : JsNum
  value : JsNum
  grossPerformance : Option ℚ
  netPerformance : Option ℚ
deriving DecidableEq

/-- One account entry of getDetails, with the two fields touched by the
restricted-view branch (portfolio.controller.ts lines 195 to 198). -/
structure AccountRecord where
  current : ℚ
  original : ℚ
deriving DecidableEq

/-- One account entry after the restricted-view normalization. -/
structure NormalizedAccount where
  current : JsNum
  original : JsNum
deriving DecidableEq

/-- The restricted-view branch of PortfolioController.getDetails
(portfolio.controller.ts lines 166 to 199): totalInvestment is the sum of
the investment of all holdings; totalValue converts quantity times market
price of each holding into the user currency through the exchange-rate
service; every holding then has grossPerformance and netPerformance and
quantity set to null, investment divided by totalInvestment and value
divided by totalValue; every account has current divided by totalValue and
original divided by totalInvestment. -/
def normalizeDetailsForRestrictedView (toCurrency : ℚ → String → String → ℚ)
    (userCurrency : String) (accounts : List (String × AccountRecord))
    (holdings : List (String × HoldingRecord)) :
    List (String × NormalizedAccount) × List (String × NormalizedHolding) :=
  let totalInvestment := (holdings.map fun h => h.2.investment).sum
  let totalValue :=
    (holdings.map fun h =>
      toCurrency (h.2.quantity * h.2.marketPrice) h.2.currency userCurrency).sum
  let holdingsOut := holdings.map fun h =>
    (h.1,
      { currency := h.2.currency
        quantity := none
        marketPrice := h.2.marketPrice
        investment := jsDivQ h.2.investment totalInvestment
        value := jsDivQ h.2.value totalValue
        grossPerformance := none
        netPerformance := none : NormalizedHolding })
  let accountsOut := accounts.map fun a =>
    (a.1,
      { current := jsDivQ a.2.current totalValue
        original := jsDivQ a.2.original totalInvestment : NormalizedAccount })
  (accountsOut, holdingsOut)

/-! ## Concrete values used to instantiate the theorems -/

/-- A position of 6000 invested in USD (spec section 8, first currency-rule
example). -/
def posUsd6000 : Position :=
  { symbol := "A", currency := "USD", quantity := 1, marketPrice := 6000, investment := 6000 }

/-- A position of 4000 invested in EUR (spec section 8, first currency-rule
example). -/
def posEur4000 : Position :=
  { symbol := "B", currency := "EUR", quantity := 1, marketPrice := 4000, investment := 4000 }

/-- A position of 3000 invested in USD (spec section 8, second currency-rule
example). -/
def posUsd3000 : Position :=
  { symbol := "A", currency := "USD", quantity := 1, marketPrice := 3000, investment := 3000 }

/-- A position of 7000 invested in EUR (spec section 8, second currency-rule
example). -/
def posEur7000 : Position :=
  { symbol := "B", currency := "EUR", quantity := 1, marketPrice := 7000, investment := 7000 }

/-- A position of 5 invested in USD, used for the zero-total-investment
input. -/
def posUsd5 : Position :=
  { symbol := "A", currency := "USD", quantity := 1, marketPrice := 5, investment := 5 }

/-- A position with investment -5 in EUR, used for the zero-total-investment
input. -/
def posEurNeg5 : Position :=
  { symbol := "B", currency := "EUR", quantity := 1, marketPrice := 5, investment := -5 }

/-- A deactivated catalog entry used to exercise the evaluator: its settings
derivation returns isActive false for every user. -/
def inactiveTestRule : RuleDef :=
  { name := "Inactive Rule"
    getSettings := fun u => { baseCurrency := u.baseCurrency, isActive := false }
    evaluate := evaluate }

/-- A holding with investment 6, used to instantiate the restricted-view
normalization. -/
def holdingA : String × HoldingRecord :=
  ("A", { currency := "USD", quantity := 1, marketPrice := 6, investment := 6, value := 6,
          grossPerformance := 1, netPerformance := 1 })

/-- A holding with investment 4, used to instantiate the restricted-view
normalization. -/
def holdingB : String × HoldingRecord :=
  ("B", { currency := "USD", quantity := 1, marketPrice := 4, investment := 4, value := 4,
          grossPerformance := 1, netPerformance := 1 })

/-! ## Helper lemmas -/

/-- jsOrZero is the identity on proper numbers. -/
theorem jsOrZero_num (r : ℚ) : jsOrZero (.num r) = .num r := by
  by_cases h : r = 0 <;> simp [jsOrZero, h]

/-- jsOrZero never yields NaN. -/
theorem jsOrZero_ne_nan (x : JsNum) : jsOrZero x ≠ .nan := by
  cases x <;> simp [jsOrZero]
  · split <;> simp

/-- Multiplying a non-NaN JavaScript number by a constant never yields NaN. -/
theorem jsMulPos_ne_nan (x : JsNum) (c : ℚ) (h : x ≠ .nan) : jsMulPos x c ≠ .nan := by
  cases x <;> simp [jsMulPos] at h ⊢

/-- Keys of the groups after one grouping step: unchanged when the key of the
position is already present, extended by that key otherwise. -/
theorem addToGroups_keys (attr : Position → String) (acc : List GroupItem) (p : Position) :
    (addToGroups attr acc p).map GroupItem.groupKey =
      if (acc.any fun g => g.groupKey = attr p) = true then acc.map GroupItem.groupKey
      else acc.map GroupItem.groupKey ++ [attr p] := by
  by_cases hc : (acc.any fun g => g.groupKey = attr p) = true
  · rw [addToGroups, if_pos hc, if_pos hc, List.map_map]
    refine List.map_congr_left ?_
    intro g _
    by_cases h0 : g.groupKey = attr p <;> simp [h0]
  · rw [addToGroups, if_neg hc, if_neg hc]
    simp

/-- One grouping step preserves the distinctness of group keys. -/
theorem addToGroups_keys_nodup (attr : Position → String) (acc : List GroupItem) (p : Position)
    (h : (acc.map GroupItem.groupKey).Nodup) :
    ((addToGroups attr acc p).map GroupItem.groupKey).Nodup := by
  rw [addToGroups_keys]
  by_cases hc : (acc.any fun g => g.groupKey = attr p) = true
  · rw [if_pos hc]; exact h
  · rw [if_neg hc]
    simp only [List.any_eq_true, decide_eq_true_eq, not_exists, not_and] at hc
    simp [List.nodup_append, h]
    intro g hg
    exact fun hk => (by push_neg at hc; exact hc g hg hk)

/-- Key membership after one grouping step. -/
theorem key_mem_addToGroups {attr : Position → String} {acc : List GroupItem} {p : Position}
    {k : String} :
    (∃ g ∈ addToGroups attr acc p, g.groupKey = k) ↔
      (∃ g ∈ acc, g.groupKey = k) ∨ k = attr p := by
  constructor
  · intro ⟨g, hg, hk⟩
    by_cases hc : (acc.any fun g => g.groupKey = attr p) = true
    · rw [addToGroups, if_pos hc] at hg
      obtain ⟨g0, hg0, hfg⟩ := List.mem_map.mp hg
      have hkey : g.groupKey = g0.groupKey := by
        subst hfg; by_cases h0 : g0.groupKey = attr p <;> simp [h0]
      exact Or.inl ⟨g0, hg0, hkey ▸ hk⟩
    · rw [addToGroups, if_neg hc] at hg
      rcases List.mem_append.mp hg with h1 | h2
      · exact Or.inl ⟨g, h1, hk⟩
      · simp at h2; subst h2; exact Or.inr hk.symm
  · intro h
    rcases h with ⟨g, hg, hk⟩ | rfl
    · by_cases hc : (acc.any fun g => g.groupKey = attr p) = true
      · rw [addToGroups, if_pos hc]
        refine ⟨_, List.mem_map_of_mem _ hg, ?_⟩
        dsimp only
        by_cases h0 : g.groupKey = attr p
        · rw [if_pos h0]; exact hk
        · rw [if_neg h0]; exact hk
      · rw [addToGroups, if_neg hc]
        exact ⟨g, List.mem_append_left _ hg, hk⟩
    · by_cases hc : (acc.any fun g => g.groupKey = attr p) = true
      · rw [addToGroups, if_pos hc]
        obtain ⟨g, hg, hkb⟩ := List.any_eq_true.mp hc
        have hk := of_decide_eq_true hkb
        refine ⟨_, List.mem_map_of_mem _ hg, ?_⟩
        dsimp only
        rw [if_pos hk]
        exact hk
      · rw [addToGroups, if_neg hc]
        exact ⟨⟨attr p, p.investment, [p]⟩, by simp, rfl⟩

/-- Every key present after folding the grouping steps comes from the
accumulator or from the attribute of some position. -/
theorem key_mem_foldl (attr : Position → String) :
    ∀ (ps : List Position) (acc : List GroupItem) (k : String),
      (∃ g ∈ ps.foldl (addToGroups attr) acc, g.groupKey = k) →
      (∃ g ∈ acc, g.groupKey = k) ∨ ∃ p ∈ ps, attr p = k := by
  intro ps
  induction ps with
  | nil => intro acc k h; exact Or.inl (by simpa using h)
  | cons p t ih =>
    intro acc k h
    rcases ih (addToGroups attr acc p) k (by simpa using h) with h1 | h2
    · rcases key_mem_addToGroups.mp h1 with h3 | h3
      · exact Or.inl h3
      · exact Or.inr ⟨p, by simp, h3.symm⟩
    · obtain ⟨q, hq, hqk⟩ := h2
      exact Or.inr ⟨q, by simp [hq], hqk⟩

/-- Folding the grouping steps preserves key distinctness. -/
theorem foldl_keys_nodup (attr : Position → String) :
    ∀ (ps : List Position) (acc : List GroupItem),
      (acc.map GroupItem.groupKey).Nodup →
      ((ps.foldl (addToGroups attr) acc).map GroupItem.groupKey).Nodup := by
  intro ps
  induction ps with
  | nil => intro acc h; simpa using h
  | cons p t ih => intro acc h; exact ih _ (addToGroups_keys_nodup attr acc p h)

/-- The grouped sequence always contains a group for the pinned key. -/
theorem pinned_key_mem (ps : List Position) (attr : Position → String) (pin : String) :
    ∃ g ∈ groupCurrentPositionsByAttribute ps attr pin, g.groupKey = pin := by
  unfold groupCurrentPositionsByAttribute
  by_cases hc : ((ps.foldl (addToGroups attr) []).any fun g => g.groupKey = pin) = true
  · rw [if_pos hc]
    simpa using hc
  · rw [if_neg hc]
    exact ⟨⟨pin, 0, []⟩, by simp, rfl⟩

/-- The keys of the grouped sequence are distinct. -/
theorem grouped_keys_nodup (ps : List Position) (attr : Position → String) (pin : String) :
    ((groupCurrentPositionsByAttribute ps attr pin).map GroupItem.groupKey).Nodup := by
  unfold groupCurrentPositionsByAttribute
  have h0 := foldl_keys_nodup attr ps [] (by simp)
  by_cases hc : ((ps.foldl (addToGroups attr) []).any fun g => g.groupKey = pin) = true
  · rw [if_pos hc]; exact h0
  · rw [if_neg hc]
    simp only [List.any_eq_true, decide_eq_true_eq, not_exists, not_and] at hc
    simp [List.nodup_append, h0]
    intro g hg
    exact fun hk => (by push_neg at hc; exact hc g hg hk)

/-- The grouped sequence is never empty. -/
theorem group_ne_nil (ps : List Position) (attr : Position → String) (pin : String) :
    groupCurrentPositionsByAttribute ps attr pin ≠ [] := by
  intro h
  have hmem := pinned_key_mem ps attr pin
  rw [h] at hmem
  simp at hmem

/-- The maximum search returns its start value or a member of the list. -/
theorem maxItemOf_mem (a : GroupItem) (l : List GroupItem) :
    maxItemOf a l = a ∨ maxItemOf a l ∈ l := by
  induction l generalizing a with
  | nil => exact Or.inl rfl
  | cons g t ih =>
    simp only [maxItemOf, List.foldl_cons] at ih ⊢
    by_cases hc : a.investment < g.investment
    · rw [if_pos hc]
      rcases ih g with h | h
      · rw [h]; exact Or.inr (List.mem_cons_self g t)
      · exact Or.inr (List.mem_cons_of_mem g h)
    · rw [if_neg hc]
      rcases ih a with h | h
      · exact Or.inl h
      · exact Or.inr (List.mem_cons_of_mem g h)

/-- The maximum search dominates its start value and every member. -/
theorem le_maxItemOf (a : GroupItem) (l : List GroupItem) :
    a.investment ≤ (maxItemOf a l).investment ∧
      ∀ g ∈ l, g.investment ≤ (maxItemOf a l).investment := by
  induction l generalizing a with
  | nil => exact ⟨le_refl _, by simp⟩
  | cons g t ih =>
    simp only [maxItemOf, List.foldl_cons] at ih ⊢
    obtain ⟨h1, h2⟩ := ih (if a.investment < g.investment then g else a)
    have ha : a.investment ≤ (if a.investment < g.investment then g else a).investment := by
      by_cases hc : a.investment < g.investment
      · rw [if_pos hc]; exact le_of_lt hc
      · rw [if_neg hc]
    have hg : g.investment ≤ (if a.investment < g.investment then g else a).investment := by
      by_cases hc : a.investment < g.investment
      · rw [if_pos hc]
      · rw [if_neg hc]; exact le_of_not_lt hc
    refine ⟨ha.trans h1, ?_⟩
    intro x hx
    rcases List.mem_cons.mp hx with rfl | hx
    · exact hg.trans h1
    · exact h2 x hx

/-- Reduction of evaluate once the grouped sequence is known to be a cons. -/
theorem evaluate_cons (s : Settings) (cp : CurrentPositions) (first : GroupItem)
    (rest : List GroupItem) (hG : positionsGroupedByCurrency s cp = first :: rest) :
    evaluate s cp =
      if (maxItemOf first (first :: rest)).groupKey ≠ s.baseCurrency then
        some { evaluation := evaluationText false
                 (baseCurrencyInvestmentRatioOf s.baseCurrency (first :: rest)) s.baseCurrency,
               value := false }
      else
        some { evaluation := evaluationText true
                 (baseCurrencyInvestmentRatioOf s.baseCurrency (first :: rest)) s.baseCurrency,
               value := true } := by
  rw [evaluate, hG]

/-- evaluate always produces a result: the grouped sequence is never empty,
so reading element 0 always succeeds. -/
theorem evaluate_eq_some (s : Settings) (cp : CurrentPositions) :
    ∃ e, evaluate s cp = some e := by
  cases hG : positionsGroupedByCurrency s cp with
  | nil => exact absurd hG (group_ne_nil cp.positions (fun p => p.currency) s.baseCurrency)
  | cons first rest =>
    by_cases hmax :
        (maxItemOf first (first :: rest)).groupKey ≠ s.baseCurrency
    · exact ⟨_, by rw [evaluate_cons s cp first rest hG, if_pos hmax]⟩
    · exact ⟨_, by rw [evaluate_cons s cp first rest hG, if_neg hmax]⟩

/-- When the total is nonzero and the base-currency group is found, the ratio
expression is the plain rational quotient. -/
theorem ratioOf_eq_num (base : String) (groups : List GroupItem) (gb : GroupItem)
    (hfind : baseCurrencyItemOf base groups = some gb)
    (htot : totalInvestmentOf groups ≠ 0) :
    baseCurrencyInvestmentRatioOf base groups =
      .num (gb.investment / totalInvestmentOf groups) := by
  rw [baseCurrencyInvestmentRatioOf, hfind]
  show jsOrZero (jsDivQ gb.investment (totalInvestmentOf groups)) = _
  rw [jsDivQ, if_neg htot, jsOrZero_num]

/-- Summing a list divided element-wise by a constant. -/
theorem list_sum_map_div (l : List ℚ) (c : ℚ) :
    (l.map fun x => x / c).sum = l.sum / c := by
  induction l with
  | nil => simp
  | cons a t ih => simp [ih, add_div]

/-! ## Claim theorems -/

/-- C1: For every non-empty position set and every base currency, evaluate
groups investment by currency and returns an Evaluation whose value is false
whenever some currency group other than the base currency has strictly more
investment than the base-currency group, and true whenever the base-currency
group has strictly more investment than every other group, and whose
evaluation text reports the share of the base-currency group in total
investment as a percentage rendered through toPrecision(3). -/
theorem currencyRule_verdict_matches_largest_group
    (ps : List Position) (fs : ℚ) (errs : List String) (base : String)
    (_hne : ps ≠ [])
    (groups : List GroupItem)
    (hg : groups = positionsGroupedByCurrency { baseCurrency := base, isActive := true }
      { positions := ps, fees := fs, errors := errs })
    (bInv total : ℚ)
    (hb : bInv = ((baseCurrencyItemOf base groups).map GroupItem.investment).getD 0)
    (ht : total = totalInvestmentOf groups) :
    ∃ e, evaluate { baseCurrency := base, isActive := true }
        { positions := ps, fees := fs, errors := errs } = some e ∧
      ((∃ g ∈ groups, g.groupKey ≠ base ∧ bInv < g.investment) → e.value = false) ∧
      ((∀ g ∈ groups, g.groupKey ≠ base → g.investment < bInv) → e.value = true) ∧
      (total ≠ 0 →
        e.evaluation =
          (if e.value then
            "The major part of your initial investment is in your base currency ("
          else
            "The major part of your initial investment is not in your base currency (")
          ++ toPrecision3 (bInv / total * 100) ++ "% in " ++ base ++ ")") := by
  subst hg
  subst hb
  subst ht
  obtain ⟨gb0, hgb0mem, hgb0key⟩ := pinned_key_mem ps (fun p => p.currency) base
  have hfindSome : (baseCurrencyItemOf base
      (positionsGroupedByCurrency { baseCurrency := base, isActive := true }
        { positions := ps, fees := fs, errors := errs })).isSome := by
    rw [baseCurrencyItemOf, List.find?_isSome]
    exact ⟨gb0, hgb0mem, by simp [hgb0key]⟩
  obtain ⟨gb, hfind⟩ := Option.isSome_iff_exists.mp hfindSome
  have hgbmem : gb ∈ positionsGroupedByCurrency { baseCurrency := base, isActive := true }
      { positions := ps, fees := fs, errors := errs } := List.mem_of_find?_eq_some hfind
  have hgbkey : gb.groupKey = base := by
    have := List.find?_some hfind
    simpa using this
  cases hG : positionsGroupedByCurrency { baseCurrency := base, isActive := true }
      { positions := ps, fees := fs, errors := errs } with
  | nil => exact absurd hG (group_ne_nil ps (fun p => p.currency) base)
  | cons first rest =>
    have hG' : groupCurrentPositionsByAttribute ps (fun p => p.currency) base =
        first :: rest := hG
    have hnodup := grouped_keys_nodup ps (fun p => p.currency) base
    rw [hG'] at hnodup
    rw [hG] at hgbmem hfind
    have hbval : ((baseCurrencyItemOf base (first :: rest)).map GroupItem.investment).getD 0 =
        gb.investment := by
      rw [hfind]
      rfl
    have hmaxmem : maxItemOf first (first :: rest) ∈ first :: rest := by
      rcases maxItemOf_mem first (first :: rest) with h | h
      · rw [h]; exact List.mem_cons_self _ _
      · exact h
    have hmaxle := (le_maxItemOf first (first :: rest)).2
    rw [evaluate_cons _ _ first rest hG]
    by_cases hmax : (maxItemOf first (first :: rest)).groupKey = base
    · rw [if_neg (not_not_intro hmax)]
      refine ⟨_, rfl, ?_, ?_, ?_⟩
      · rintro ⟨g, hgmemG, _, hglt⟩
        rw [hbval] at hglt
        have hmb : maxItemOf first (first :: rest) = gb :=
          List.inj_on_of_nodup_map hnodup hmaxmem hgbmem (by rw [hmax, hgbkey])
        have h1 : g.investment ≤ gb.investment := by
          rw [← hmb]
          exact hmaxle g hgmemG
        exact absurd h1 (not_le.mpr hglt)
      · intro _
        rfl
      · intro htot
        rw [hbval, ratioOf_eq_num base (first :: rest) gb hfind htot]
        simp only [evaluationText, jsMulPos, renderJsNum, if_true]
    · rw [if_pos hmax]
      refine ⟨_, rfl, ?_, ?_, ?_⟩
      · intro _
        rfl
      · intro hall
        exfalso
        have h1 := hall (maxItemOf first (first :: rest)) hmaxmem hmax
        rw [hbval] at h1
        exact absurd (hmaxle gb hgbmem) (not_le.mpr h1)
      · intro htot
        rw [hbval, ratioOf_eq_num base (first :: rest) gb hfind htot]
        simp only [evaluationText, jsMulPos, renderJsNum, if_false]

/-- Witness for C1 at the concrete portfolio of 6000 USD and 4000 EUR with
base currency USD. -/
theorem currencyRule_verdict_matches_largest_group_witness :
    (([posUsd6000, posEur4000] : List Position) ≠ []) ∧
    (∃ e, evaluate { baseCurrency := "USD", isActive := true }
        { positions := [posUsd6000, posEur4000], fees := 0, errors := [] } = some e ∧
      ((∃ g ∈ positionsGroupedByCurrency { baseCurrency := "USD", isActive := true }
            { positions := [posUsd6000, posEur4000], fees := 0, errors := [] },
          g.groupKey ≠ "USD" ∧
            ((baseCurrencyItemOf "USD"
                (positionsGroupedByCurrency { baseCurrency := "USD", isActive := true }
                  { positions := [posUsd6000, posEur4000], fees := 0,
                    errors := [] })).map GroupItem.investment).getD 0 < g.investment) →
        e.value = false) ∧
      ((∀ g ∈ positionsGroupedByCurrency { baseCurrency := "USD", isActive := true }
            { positions := [posUsd6000, posEur4000], fees := 0, errors := [] },
          g.groupKey ≠ "USD" →
            g.investment < ((baseCurrencyItemOf "USD"
                (positionsGroupedByCurrency { baseCurrency := "USD", isActive := true }
                  { positions := [posUsd6000, posEur4000], fees := 0,
                    errors := [] })).map GroupItem.investment).getD 0) →
        e.value = true) ∧
      (totalInvestmentOf (positionsGroupedByCurrency { baseCurrency := "USD", isActive := true }
            { positions := [posUsd6000, posEur4000], fees := 0, errors := [] }) ≠ 0 →
        e.evaluation =
          (if e.value then
            "The major part of your initial investment is in your base currency ("
          else
            "The major part of your initial investment is not in your base currency (")
          ++ toPrecision3
              (((baseCurrencyItemOf "USD"
                  (positionsGroupedByCurrency { baseCurrency := "USD", isActive := true }
                    { positions := [posUsd6000, posEur4000], fees := 0,
                      errors := [] })).map GroupItem.investment).getD 0 /
                totalInvestmentOf (positionsGroupedByCurrency
                  { baseCurrency := "USD", isActive := true }
                  { positions := [posUsd6000, posEur4000], fees := 0, errors := [] }) * 100)
          ++ "% in " ++ "USD" ++ ")")) :=
  ⟨by simp,
   currencyRule_verdict_matches_largest_group [posUsd6000, posEur4000] 0 [] "USD"
     (by simp) _ rfl _ _ rfl rfl⟩

/-- C2: on the portfolio of 6000 USD and 4000 EUR with base currency USD the
verdict is true with ratio 60.0 percent, and on the portfolio of 3000 USD
and 7000 EUR it is false with ratio 30.0 percent. -/
theorem currencyRule_concrete_examples :
    evaluate { baseCurrency := "USD", isActive := true }
        { positions := [posUsd6000, posEur4000], fees := 0, errors := [] } =
      some { evaluation :=
               "The major part of your initial investment is in your base currency (60.0% in USD)",
             value := true } ∧
    evaluate { baseCurrency := "USD", isActive := true }
        { positions := [posUsd3000, posEur7000], fees := 0, errors := [] } =
      some { evaluation :=
               "The major part of your initial investment is not in your base currency (30.0% in USD)",
             value := false } :=
  ⟨by with_unfolding_all decide, by with_unfolding_all decide⟩

/-- C3: for every input, the empty position set included, evaluate returns a
definitive Evaluation whose value is strictly boolean; in particular the
read of element 0 of the grouped sequence never fails, because the pinned
base-currency key guarantees a nonempty sequence. -/
theorem evaluate_always_definitive (s : Settings) (cp : CurrentPositions) :
    ∃ e, evaluate s cp = some e ∧ (e.value = true ∨ e.value = false) := by
  obtain ⟨e, he⟩ := evaluate_eq_some s cp
  exact ⟨e, he, Bool.eq_false_or_eq_true e.value⟩

/-- C4: grouping with a pinned key matched by no position yields a
zero-investment GroupItem for that key in the result sequence instead of
omitting it. -/
theorem pinned_key_zero_group (positions : List Position) (attr : Position → String)
    (pinned : String) (h : ∀ p ∈ positions, attr p ≠ pinned) :
    ∃ g ∈ groupCurrentPositionsByAttribute positions attr pinned,
      g.groupKey = pinned ∧ g.investment = 0 := by
  have hno : ¬((positions.foldl (addToGroups attr) []).any fun g => g.groupKey = pinned)
      = true := by
    intro hc
    obtain ⟨g, hg, hkb⟩ := List.any_eq_true.mp hc
    rcases key_mem_foldl attr positions [] pinned ⟨g, hg, of_decide_eq_true hkb⟩ with
      ⟨x, hx, _⟩ | ⟨p, hp, hkp⟩
    · simp at hx
    · exact h p hp hkp
  unfold groupCurrentPositionsByAttribute
  rw [if_neg hno]
  exact ⟨⟨pinned, 0, []⟩, by simp, rfl, rfl⟩

/-- Witness for C4: a single EUR position grouped by currency with pinned
key USD. -/
theorem pinned_key_zero_group_witness :
    (∀ p ∈ [posEur4000], p.currency ≠ "USD") ∧
    (∃ g ∈ groupCurrentPositionsByAttribute [posEur4000] (fun p => p.currency) "USD",
      g.groupKey = "USD" ∧ g.investment = 0) :=
  ⟨by with_unfolding_all decide,
   pinned_key_zero_group [posEur4000] (fun p => p.currency) "USD"
     (by with_unfolding_all decide)⟩

/-- C5 counterexample: on the portfolio of investment 5 in USD and -5 in EUR
with base currency USD the total investment (the denominator) is zero, yet
the ratio expression evaluates to Infinity instead of falling back to 0,
because 5 divided by 0 is Infinity in JavaScript and Infinity is truthy, so
the fallback of the or-expression is not taken; the evaluation text reports
an Infinity percentage. -/
theorem ratio_zero_denominator_counterexample :
    totalInvestmentOf (positionsGroupedByCurrency { baseCurrency := "USD", isActive := true }
        { positions := [posUsd5, posEurNeg5], fees := 0, errors := [] }) = 0 ∧
    baseCurrencyInvestmentRatioOf "USD"
        (positionsGroupedByCurrency { baseCurrency := "USD", isActive := true }
          { positions := [posUsd5, posEurNeg5], fees := 0, errors := [] }) = JsNum.inf ∧
    evaluate { baseCurrency := "USD", isActive := true }
        { positions := [posUsd5, posEurNeg5], fees := 0, errors := [] } =
      some { evaluation :=
               "The major part of your initial investment is in your base currency (Infinity% in USD)",
             value := true } :=
  ⟨by with_unfolding_all decide, by with_unfolding_all decide, by with_unfolding_all decide⟩

/-- C5 amended: for every input whose total investment is zero and whose
base-currency group investment is also zero (in particular every zero-total
input with no negative investment), the ratio falls back to 0 and the
interpolated percentage renders as 0.00; moreover, for every input the
rendered ratio value is never NaN and evaluate never fails. -/
theorem ratio_zero_denominator_amended (s : Settings) (cp : CurrentPositions)
    (_h0 : totalInvestmentOf (positionsGroupedByCurrency s cp) = 0)
    (hb : ((baseCurrencyItemOf s.baseCurrency (positionsGroupedByCurrency s cp)).map
        GroupItem.investment).getD 0 = 0) :
    baseCurrencyInvestmentRatioOf s.baseCurrency (positionsGroupedByCurrency s cp) =
      JsNum.num 0 ∧
    renderJsNum (jsMulPos (baseCurrencyInvestmentRatioOf s.baseCurrency
        (positionsGroupedByCurrency s cp)) 100) = "0.00" ∧
    (∀ (s2 : Settings) (cp2 : CurrentPositions),
      jsMulPos (baseCurrencyInvestmentRatioOf s2.baseCurrency
        (positionsGroupedByCurrency s2 cp2)) 100 ≠ JsNum.nan) ∧
    ∃ e, evaluate s cp = some e := by
  have hzero : baseCurrencyInvestmentRatioOf s.baseCurrency (positionsGroupedByCurrency s cp) =
      JsNum.num 0 := by
    cases hfind : baseCurrencyItemOf s.baseCurrency (positionsGroupedByCurrency s cp) with
    | none =>
      rw [baseCurrencyInvestmentRatioOf, hfind]
      rfl
    | some gb =>
      have hgb : gb.investment = 0 := by
        rw [hfind] at hb
        simpa using hb
      rw [baseCurrencyInvestmentRatioOf, hfind]
      show jsOrZero (jsDivQ gb.investment
        (totalInvestmentOf (positionsGroupedByCurrency s cp))) = JsNum.num 0
      rw [hgb, jsDivQ]
      by_cases ht : totalInvestmentOf (positionsGroupedByCurrency s cp) = 0
      · rw [if_pos ht, if_pos rfl]
        rfl
      · rw [if_neg ht, zero_div]
        exact jsOrZero_num 0
  refine ⟨hzero, ?_, ?_, evaluate_eq_some s cp⟩
  · rw [hzero]
    show renderJsNum (JsNum.num (0 * 100)) = "0.00"
    rw [zero_mul]
    show toPrecision3 0 = "0.00"
    rw [toPrecision3, if_pos rfl]
  · intro s2 cp2
    exact jsMulPos_ne_nan _ _ (jsOrZero_ne_nan _)

/-- Witness for the amended C5 at the empty position set with base currency
USD: the total investment and the base-currency group investment are 0. -/
theorem ratio_zero_denominator_amended_witness :
    (totalInvestmentOf (positionsGroupedByCurrency { baseCurrency := "USD", isActive := true }
        { positions := [], fees := 0, errors := [] }) = 0) ∧
    (((baseCurrencyItemOf "USD"
        (positionsGroupedByCurrency { baseCurrency := "USD", isActive := true }
          { positions := [], fees := 0, errors := [] })).map GroupItem.investment).getD 0 = 0) ∧
    (baseCurrencyInvestmentRatioOf "USD"
        (positionsGroupedByCurrency { baseCurrency := "USD", isActive := true }
          { positions := [], fees := 0, errors := [] }) = JsNum.num 0 ∧
      renderJsNum (jsMulPos (baseCurrencyInvestmentRatioOf "USD"
        (positionsGroupedByCurrency { baseCurrency := "USD", isActive := true }
          { positions := [], fees := 0, errors := [] })) 100) = "0.00" ∧
      (∀ (s2 : Settings) (cp2 : CurrentPositions),
        jsMulPos (baseCurrencyInvestmentRatioOf s2.baseCurrency
          (positionsGroupedByCurrency s2 cp2)) 100 ≠ JsNum.nan) ∧
      ∃ e, evaluate { baseCurrency := "USD", isActive := true }
        { positions := [], fees := 0, errors := [] } = some e) :=
  ⟨by with_unfolding_all decide, by with_unfolding_all decide,
   ratio_zero_denominator_amended { baseCurrency := "USD", isActive := true }
     { positions := [], fees := 0, errors := [] }
     (by with_unfolding_all decide) (by with_unfolding_all decide)⟩

/-- C6 counterexample: getSettings returns isActive true even for a user
whose activation preference for the currency rule is false; the derived
isActive flag is the literal true and does not reflect the per-rule
activation preference. -/
theorem getSettings_ignores_preference_counterexample :
    (getSettings { baseCurrency := "USD", isCurrencyRuleActive := false }).isActive = true ∧
    ({ baseCurrency := "USD", isCurrencyRuleActive := false } : UserSettings).isCurrencyRuleActive
      = false :=
  ⟨rfl, rfl⟩

/-- C6 amended: getSettings of the currency-cluster-risk rule returns
isActive true for every user settings value (the rule cannot be deactivated
through its getSettings), and a catalog rule whose derived settings have
isActive false contributes no entry to the produced report. -/
theorem rule_activation_amended :
    (∀ u : UserSettings, (getSettings u).isActive = true) ∧
    (∀ (catalog : List RuleDef) (u : UserSettings) (cp : CurrentPositions) (r : RuleDef),
      r ∈ catalog → (catalog.map RuleDef.name).Nodup →
      (r.getSettings u).isActive = false →
      ∀ entry ∈ evaluateAll catalog u cp, entry.1 ≠ r.name) := by
  refine ⟨fun _ => rfl, ?_⟩
  intro catalog u cp r hmem hnodup hinact entry hentry hname
  obtain ⟨r2, hr2f, hr2eq⟩ := List.mem_map.mp hentry
  have hr2mem : r2 ∈ catalog := List.mem_of_mem_filter hr2f
  have hr2act : (r2.getSettings u).isActive = true := by
    have := List.of_mem_filter hr2f
    simpa using this
  have hnameeq : r2.name = r.name := by
    rw [← hr2eq] at hname
    exact hname
  have hr2r : r2 = r := List.inj_on_of_nodup_map hnodup hr2mem hmem hnameeq
  rw [hr2r, hinact] at hr2act
  exact Bool.false_ne_true hr2act

/-- Witness for the amended C6: a two-rule catalog in which the second rule
derives inactive settings; the report contains no entry with its name. -/
theorem rule_activation_amended_witness :
    ((getSettings { baseCurrency := "USD", isCurrencyRuleActive := false }).isActive = true) ∧
    (inactiveTestRule ∈ [currencyClusterRiskBaseCurrencyInitialInvestment, inactiveTestRule]) ∧
    (∀ entry ∈ evaluateAll [currencyClusterRiskBaseCurrencyInitialInvestment, inactiveTestRule]
        { baseCurrency := "USD", isCurrencyRuleActive := false }
        { positions := [], fees := 0, errors := [] },
      entry.1 ≠ inactiveTestRule.name) :=
  ⟨rule_activation_amended.1 _, by simp,
   rule_activation_amended.2 _ _ _ inactiveTestRule (by simp)
     (by with_unfolding_all decide) rfl⟩

/-- C7: rule evaluation is deterministic: equal settings and equal position
sets produce the identical Evaluation, and equal user settings and position
sets produce the identical ordered report for any fixed catalog. -/
theorem evaluate_deterministic (s1 s2 : Settings) (cp1 cp2 : CurrentPositions)
    (catalog : List RuleDef) (u1 u2 : UserSettings)
    (hs : s1 = s2) (hcp : cp1 = cp2) (hu : u1 = u2) :
    evaluate s1 cp1 = evaluate s2 cp2 ∧
    evaluateAll catalog u1 cp1 = evaluateAll catalog u2 cp2 := by
  subst hs
  subst hcp
  subst hu
  exact ⟨rfl, rfl⟩

/-- Witness for C7 at concrete settings, user settings and position set. -/
theorem evaluate_deterministic_witness :
    evaluate { baseCurrency := "USD", isActive := true }
        { positions := [posUsd6000], fees := 0, errors := [] } =
      evaluate { baseCurrency := "USD", isActive := true }
        { positions := [posUsd6000], fees := 0, errors := [] } ∧
    evaluateAll [currencyClusterRiskBaseCurrencyInitialInvestment]
        { baseCurrency := "USD", isCurrencyRuleActive := true }
        { positions := [posUsd6000], fees := 0, errors := [] } =
      evaluateAll [currencyClusterRiskBaseCurrencyInitialInvestment]
        { baseCurrency := "USD", isCurrencyRuleActive := true }
        { positions := [posUsd6000], fees := 0, errors := [] } :=
  evaluate_deterministic _ _ _ _ _ _ _ rfl rfl rfl

/-- C8: evaluate does not mutate the CurrentPositions value it receives: in
the state-threaded embedding the final state equals the initial one in every
field, while the produced evaluation is that of evaluate. -/
theorem evaluate_preserves_currentPositions (s : Settings) (cp : CurrentPositions) :
    (evaluateWithState s cp).2 = cp ∧
    (evaluateWithState s cp).2.positions = cp.positions ∧
    (evaluateWithState s cp).2.fees = cp.fees ∧
    (evaluateWithState s cp).2.errors = cp.errors ∧
    (evaluateWithState s cp).1 = evaluate s cp :=
  ⟨rfl, rfl, rfl, rfl, rfl⟩

/-- C9: the NOT_FOUND branch of getPublic is unreachable: the user lookup
dereferences access.userId before the missing-access guard, so a null access
lookup fails on the dereference, and a successful lookup makes the guard
false, so the 404 response with empty accounts and holdings is never
produced. -/
theorem getPublic_notFound_unreachable :
    (∀ (lookup : String → Option Access) (accessId : String),
      getPublicAccessPhase lookup accessId ≠ GetPublicStep.notFoundResponse) ∧
    (∀ (lookup : String → Option Access) (accessId : String),
      lookup accessId = none →
      getPublicAccessPhase lookup accessId = GetPublicStep.nullDereference) ∧
    (∀ (lookup : String → Option Access) (accessId : String) (a : Access),
      lookup accessId = some a →
      getPublicAccessPhase lookup accessId = GetPublicStep.proceed a.userId) := by
  refine ⟨?_, ?_, ?_⟩
  · intro lookup aid
    cases h : lookup aid with
    | none => simp [getPublicAccessPhase, h]
    | some a => simp [getPublicAccessPhase, h]
  · intro lookup aid h
    simp [getPublicAccessPhase, h]
  · intro lookup aid a h
    simp [getPublicAccessPhase, h]

/-- Witness for C9 at a concrete missing access and a concrete present
access. -/
theorem getPublic_notFound_unreachable_witness :
    ((fun _ : String => (none : Option Access)) "id1" = none) ∧
    getPublicAccessPhase (fun _ : String => (none : Option Access)) "id1" =
      GetPublicStep.nullDereference ∧
    getPublicAccessPhase (fun _ : String => some { userId := "u1" }) "id1" =
      GetPublicStep.proceed "u1" ∧
    getPublicAccessPhase (fun _ : String => (none : Option Access)) "id1" ≠
      GetPublicStep.notFoundResponse ∧
    getPublicAccessPhase (fun _ : String => some { userId := "u1" }) "id1" ≠
      GetPublicStep.notFoundResponse :=
  ⟨rfl, getPublic_notFound_unreachable.2.1 _ _ rfl,
   getPublic_notFound_unreachable.2.2 _ _ { userId := "u1" } rfl,
   getPublic_notFound_unreachable.1 _ _,
   getPublic_notFound_unreachable.1 _ _⟩

/-- Sum of the extracted normalized investments over a list of holdings
divided by a nonzero constant. -/
theorem sum_normalized_investments (T : ℚ) (hT : T ≠ 0) :
    ∀ l : List (String × HoldingRecord),
      (l.map fun h => jsNumToQ (jsDivQ h.2.investment T)).sum =
        (l.map fun h => h.2.investment).sum / T := by
  intro l
  induction l with
  | nil => simp
  | cons a t ih =>
    simp only [List.map_cons, List.sum_cons, ih]
    rw [jsDivQ, if_neg hT, add_div]
    rfl

/-- C10: under restricted view, for every holdings list whose investments
sum to a nonzero total, the normalization divides every investment by the
total, sets quantity, grossPerformance and netPerformance to null, and the
normalized investments sum to exactly 1 in exact arithmetic. -/
theorem getDetails_restricted_normalization (toCur : ℚ → String → String → ℚ)
    (cur : String) (accounts : List (String × AccountRecord))
    (holdings : List (String × HoldingRecord))
    (hT : (holdings.map fun h => h.2.investment).sum ≠ 0) :
    (∀ h ∈ holdings, ∃ n : NormalizedHolding,
        (h.1, n) ∈ (normalizeDetailsForRestrictedView toCur cur accounts holdings).2 ∧
        n.investment =
          JsNum.num (h.2.investment / (holdings.map fun x => x.2.investment).sum) ∧
        n.quantity = none ∧ n.grossPerformance = none ∧ n.netPerformance = none) ∧
    ((normalizeDetailsForRestrictedView toCur cur accounts holdings).2.map
        fun p => jsNumToQ p.2.investment).sum = 1 := by
  have hsnd : (normalizeDetailsForRestrictedView toCur cur accounts holdings).2 =
      holdings.map fun h =>
        (h.1,
          { currency := h.2.currency
            quantity := none
            marketPrice := h.2.marketPrice
            investment := jsDivQ h.2.investment ((holdings.map fun x => x.2.investment).sum)
            value := jsDivQ h.2.value
              ((holdings.map fun x =>
                toCur (x.2.quantity * x.2.marketPrice) x.2.currency cur).sum)
            grossPerformance := none
            netPerformance := none : NormalizedHolding }) := rfl
  constructor
  · intro h hmem
    refine ⟨{ currency := h.2.currency
              quantity := none
              marketPrice := h.2.marketPrice
              investment := jsDivQ h.2.investment ((holdings.map fun x => x.2.investment).sum)
              value := jsDivQ h.2.value
                ((holdings.map fun x =>
                  toCur (x.2.quantity * x.2.marketPrice) x.2.currency cur).sum)
              grossPerformance := none
              netPerformance := none }, ?_, ?_, rfl, rfl, rfl⟩
    · rw [hsnd]
      exact List.mem_map_of_mem _ hmem
    · show jsDivQ h.2.investment ((holdings.map fun x => x.2.investment).sum) = _
      rw [jsDivQ, if_neg hT]
  · rw [hsnd, List.map_map]
    show (holdings.map fun h =>
      jsNumToQ (jsDivQ h.2.investment ((holdings.map fun x => x.2.investment).sum))).sum = 1
    rw [sum_normalized_investments _ hT holdings]
    exact div_self hT

/-- Witness for C10 at two concrete holdings with investments 6 and 4 and
the identity currency conversion. -/
theorem getDetails_restricted_normalization_witness :
    (([holdingA, holdingB].map fun h => h.2.investment).sum ≠ 0) ∧
    ((∀ h ∈ [holdingA, holdingB], ∃ n : NormalizedHolding,
        (h.1, n) ∈ (normalizeDetailsForRestrictedView (fun a _ _ => a) "USD" []
          [holdingA, holdingB]).2 ∧
        n.investment =
          JsNum.num (h.2.investment / ([holdingA, holdingB].map fun x => x.2.investment).sum) ∧
        n.quantity = none ∧ n.grossPerformance = none ∧ n.netPerformance = none) ∧
      ((normalizeDetailsForRestrictedView (fun a _ _ => a) "USD" []
          [holdingA, holdingB]).2.map fun p => jsNumToQ p.2.investment).sum = 1) :=
  ⟨by with_unfolding_all decide,
   getDetails_restricted_normalization (fun a _ _ => a) "USD" [] [holdingA, holdingB]
     (by with_unfolding_all decide)⟩
